import Mathlib

/-!
# SmurfSniper — verification of the match-history analytics engine

A shallow embedding, in Lean 4, of the analytics core of the SmurfSniper
repository: the smurf heuristic, the trend classifier, the time-series
normalizer, the opponent resolver, the windowed win/loss aggregator, the
teammate frequency tracker, and team reconstruction.  Python numeric values
are modelled as `Nat`/`Int`/`ℚ` (divisions are exact rationals), Python
`datetime` values as integer timestamps, Python `None`-able values as
`Option`, and Python exceptions as `Option`/`Except` results.
-/

namespace SmurfSniper

/-- Windowed win/loss counters of a match history
(`smurfsniper/analyze.py`: the `wins_last_*` / `losses_last_*` family that a
`PlayerAnalysis` reads off its `match_history`). -/
structure MatchHistoryCounts where
  wins_last_day : Nat
  losses_last_day : Nat
  wins_last_3_days : Nat
  losses_last_3_days : Nat
  wins_last_week : Nat
  losses_last_week : Nat
  wins_last_month : Nat
  losses_last_month : Nat
  wins_lifetime : Nat
  losses_lifetime : Nat
  deriving Repr, DecidableEq

/-- `PlayerAnalysis.smurf_warning` (`smurfsniper/analyze.py`, lines 157–181):
`None` history yields no warning; otherwise the 3-day, 7-day and lifetime
threshold rules are tried in that order and the first satisfied rule's
warning string is returned. -/
def smurf_warning (hist : Option MatchHistoryCounts) : Option String :=
  match hist with
  | none => none
  | some h =>
    let w3 := h.wins_last_3_days
    let l3 := h.losses_last_3_days
    if 5 ≤ w3 + l3 ∧ (0.80 : ℚ) ≤ (w3 : ℚ) / ((w3 : ℚ) + (l3 : ℚ)) then
      some "⚠️ Likely Smurf (3d winrate ≥ 80%)"
    else
      let w7 := h.wins_last_week
      let l7 := h.losses_last_week
      if 8 ≤ w7 + l7 ∧ (0.75 : ℚ) ≤ (w7 : ℚ) / ((w7 : ℚ) + (l7 : ℚ)) then
        some "⚠️ Possible Smurf (7d winrate ≥ 75%)"
      else
        let wl := h.wins_lifetime
        let ll := h.losses_lifetime
        if 30 ≤ wl + ll ∧ (0.70 : ℚ) ≤ (wl : ℚ) / ((wl : ℚ) + (ll : ℚ)) then
          some "⚠️ Suspiciously strong lifetime winrate"
        else
          none

/-- The regression index list of `PlayerAnalysis.mmr_trend`
(`smurfsniper/analyze.py`, line 123): `x = list(range(n))`, cast to exact
rationals (the source computes in floating point; all quantities the claims
touch are exact at these magnitudes). -/
def regressionIndex (n : Nat) : List ℚ := (List.range n).map (fun (i : Nat) => (i : ℚ))

/-- `mean_x = sum(x) / n` (`smurfsniper/analyze.py`, line 125). -/
def regressionMeanX (n : Nat) : ℚ := (regressionIndex n).sum / (n : ℚ)

/-- `den = sum((xi - mean_x) ** 2 for xi in x)`
(`smurfsniper/analyze.py`, line 129). -/
def regressionDen (n : Nat) : ℚ :=
  ((regressionIndex n).map (fun xi => (xi - regressionMeanX n) ^ 2)).sum

/-- `num = sum((xi - mean_x) * (yi - mean_y) ...)`
(`smurfsniper/analyze.py`, lines 126–128). -/
def regressionNum (y : List ℚ) : ℚ :=
  let n := y.length
  let mean_y := y.sum / (n : ℚ)
  (((regressionIndex n).zip y).map
    (fun p => (p.1 - regressionMeanX n) * (p.2 - mean_y))).sum

/-- `PlayerAnalysis.mmr_trend` (`smurfsniper/analyze.py`, lines 115–143):
`unknown` for an absent history or fewer than 5 samples; otherwise an
ordinary least-squares slope of the most recent up-to-100 ratings against
their sample index (`y = hist.ratings[-100:]`), `unknown` on a zero
denominator, and the threshold chain on the slope. -/
def mmr_trend (hist : Option (List ℚ)) : String :=
  match hist with
  | none => "unknown"
  | some ratings =>
    if ratings.length < 5 then "unknown"
    else
      let y := ratings.drop (ratings.length - 100)
      let num := regressionNum y
      let den := regressionDen y.length
      if den = 0 then "unknown"
      else
        let slope := num / den
        if slope > 1.5 then "strong rising"
        else if slope > 0.4 then "rising"
        else if slope < -1.5 then "strong falling"
        else if slope < -0.4 then "falling"
        else "flat"

/-- The specification's regression (§4.3): the least-squares slope of the
ratings against their sample index, undefined (`none`) when the index
variance is zero. -/
def olsSlope (y : List ℚ) : Option ℚ :=
  if regressionDen y.length = 0 then none
  else some (regressionNum y / regressionDen y.length)

/-- The specification's slope thresholds (§4.3). -/
def classifySlope : Option ℚ → String
  | none => "unknown"
  | some s =>
    if s > 1.5 then "strong rising"
    else if s > 0.4 then "rising"
    else if s < -1.5 then "strong falling"
    else if s < -0.4 then "falling"
    else "flat"

/-- Modelled from the spec: one win/loss-tagged timestamped match-outcome
event (§4.2).  The windowed counters (`wins_last_day` … on the match
history of `smurfsniper/models/player.py`) are not under `src/`; only their
callers (`smurfsniper/analyze.py`, lines 183–221) are. -/
structure OutcomeEvent where
  timestamp : Int
  isWin : Bool
  deriving Repr, DecidableEq

/-- Modelled from the spec: win count over a trailing window (§4.2) —
"games whose timestamp falls within [now − window, now]".  The counter
implementation is not under `src/`. -/
def winsInWindow (events : List OutcomeEvent) (now window : Int) : Nat :=
  (events.filter (fun e =>
    e.isWin && decide (now - window ≤ e.timestamp) && decide (e.timestamp ≤ now))).length

/-- Modelled from the spec: loss count over a trailing window (§4.2).  The
counter implementation is not under `src/`. -/
def lossesInWindow (events : List OutcomeEvent) (now window : Int) : Nat :=
  (events.filter (fun e =>
    !e.isWin && decide (now - window ≤ e.timestamp) && decide (e.timestamp ≤ now))).length

/-- Modelled from the spec: lifetime win count (§4.2) — "all events, no
lower bound".  The counter implementation is not under `src/`. -/
def winsLifetime (events : List OutcomeEvent) : Nat :=
  (events.filter (fun e => e.isWin)).length

/-- Modelled from the spec: lifetime loss count (§4.2).  The counter
implementation is not under `src/`. -/
def lossesLifetime (events : List OutcomeEvent) : Nat :=
  (events.filter (fun e => !e.isWin)).length

/-- One day in seconds; the five windows of §4.2 are 1, 3, 7 and 30 of
these plus lifetime. -/
def oneDay : Int := 86400

/-- The three smurf rules stated the way the specification words them
(§4.4): games-played floor and winrate threshold per window. -/
def specSmurfRule (wins losses : Nat) (minGames : Nat) (threshold : ℚ) : Prop :=
  minGames ≤ wins + losses ∧ threshold ≤ (wins : ℚ) / ((wins : Nat) + losses : ℚ)

instance (w l m : Nat) (t : ℚ) : Decidable (specSmurfRule w l m t) := by
  unfold specSmurfRule; infer_instance

/-- The specification's decision chain (§4.4): first satisfied rule wins,
priority 3-day, then 7-day, then lifetime, else no warning. -/
def specSmurfDecision (h : MatchHistoryCounts) : Option String :=
  if specSmurfRule h.wins_last_3_days h.losses_last_3_days 5 (4/5) then
    some "⚠️ Likely Smurf (3d winrate ≥ 80%)"
  else if specSmurfRule h.wins_last_week h.losses_last_week 8 (3/4) then
    some "⚠️ Possible Smurf (7d winrate ≥ 75%)"
  else if specSmurfRule h.wins_lifetime h.losses_lifetime 30 (7/10) then
    some "⚠️ Suspiciously strong lifetime winrate"
  else
    none

end SmurfSniper

namespace ScMatchBriefer

/-- A (timestamp, rating) observation
(`sc_match_briefer/models/team_history.py` `TeamHistoryPoint`, as consumed by
`PlayerStats.get_match_history`). -/
structure TeamHistoryPoint where
  timestamp : Int
  rating : Int
  deriving Repr, DecidableEq

/-- Timestamp order on history points. -/
def tsLE (p q : TeamHistoryPoint) : Prop := p.timestamp ≤ q.timestamp

instance : DecidableRel tsLE := fun p q => by unfold tsLE; infer_instance

instance : IsTotal TeamHistoryPoint tsLE := ⟨fun p q => le_total p.timestamp q.timestamp⟩

instance : IsTrans TeamHistoryPoint tsLE := ⟨fun _ _ _ h h2 => le_trans h h2⟩

/-- The `merged_points.sort(key=lambda p: p.timestamp)` step of
`PlayerStats.get_match_history` (`sc_match_briefer/models/player.py`, line 80):
a stable ascending sort by timestamp, embedded as insertion sort, which is
stable in the same sense as Python `list.sort`. -/
def sortByTimestamp (pts : List TeamHistoryPoint) : List TeamHistoryPoint :=
  pts.insertionSort tsLE

/-- One step of the deduplication loop of `get_match_history`
(`sc_match_briefer/models/player.py`, lines 82–87): state is
`(deduped, last_ts)`; a point is appended only when its timestamp differs
from `last_ts`. -/
def dedupStep (st : List TeamHistoryPoint × Option Int) (p : TeamHistoryPoint) :
    List TeamHistoryPoint × Option Int :=
  if st.2 = some p.timestamp then st else (st.1 ++ [p], some p.timestamp)

/-- The sort-and-deduplicate step of `get_match_history`: sort ascending by
timestamp, then keep the first point of each equal-timestamp run. -/
def normalizeStep (pts : List TeamHistoryPoint) : List TeamHistoryPoint :=
  ((sortByTimestamp pts).foldl dedupStep ([], none)).1

/-- `PlayerStats.get_match_history` restricted to its pure tail
(`sc_match_briefer/models/player.py`, lines 68–93): the merged
(timestamp, rating) points are the input; an empty merge returns `None`
(the source returns `None`, not an empty history), otherwise the points are
sorted ascending by timestamp and deduplicated keeping the first point of
each equal-timestamp run. -/
def get_match_history (merged_points : List TeamHistoryPoint) :
    Option (List TeamHistoryPoint) :=
  if merged_points.isEmpty then none
  else some (normalizeStep merged_points)

/-- Structural form of the deduplication loop: drop a point exactly when its
timestamp equals the most recently kept timestamp. -/
def dedupAdj : Option Int → List TeamHistoryPoint → List TeamHistoryPoint
  | _, [] => []
  | last, p :: rest =>
    if last = some p.timestamp then dedupAdj last rest
    else p :: dedupAdj (some p.timestamp) rest

/-- One member of a historical team
(`team.members[i].character` as read by the resolver and the analytics). -/
structure TeamMemberRef where
  name : String
  battlenetId : Int
  deriving Repr, DecidableEq

/-- One historical team composition attached to a character
(`members.character.teams[i]`): its last-played instant (absent when the
API reports none) and its member roster.  Python `datetime` values are
embedded as integer timestamps; `datetime.min`, the resolver's sentinel,
is `0`, so genuine timestamps are the positive integers. -/
structure TeamObservation where
  lastPlayed : Option Int
  members : List TeamMemberRef
  deriving Repr, DecidableEq

/-- One candidate character-stats record as consumed by the resolver
(`PlayerStats` in `sc_match_briefer/models/player.py`): its own character
id, its current rating (`currentStats.rating`) and its team history. -/
structure PlayerStats where
  battlenetId : Int
  rating : Option Int
  teams : List TeamObservation
  deriving Repr, DecidableEq

/-- The inner loop of `Player.get_best_match`
(`sc_match_briefer/models/player.py`, lines 132–143) over one candidate's
teams: state is `(best, newest)`; a team with a later `lastPlayed` than
`newest` promotes this candidate to `best`. -/
def scanTeams (m : PlayerStats) (acc : PlayerStats × Int) : PlayerStats × Int :=
  m.teams.foldl (fun acc2 team =>
    match team.lastPlayed with
    | none => acc2
    | some dt => if acc2.2 < dt then (m, dt) else acc2) acc

/-- The rating filter of `Player.get_best_match`
(`sc_match_briefer/models/player.py`, lines 116–120): keep a candidate when
its current rating is present and lies in `[min_mmr, max_mmr]`. -/
def ratingInRange (min_mmr max_mmr : Int) (c : PlayerStats) : Bool :=
  match c.rating with
  | some r => decide (min_mmr ≤ r ∧ r ≤ max_mmr)
  | none => false

/-- The filter-then-fallback step of `Player.get_best_match`
(`sc_match_briefer/models/player.py`, lines 116–127): the in-range
candidates, or the full candidate list when none is in range. -/
def keptCandidates (candidates : List PlayerStats) (min_mmr max_mmr : Int) :
    List PlayerStats :=
  let filtered := candidates.filter (ratingInRange min_mmr max_mmr)
  if filtered.isEmpty then candidates else filtered

/-- `Player.get_best_match` (`sc_match_briefer/models/player.py`, lines
113–145): filter the candidates to those whose current rating lies in
`[min_mmr, max_mmr]`, fall back to the full candidate list when that filter
is empty, then scan every kept candidate's teams keeping the candidate
holding the latest `lastPlayed` seen so far; the seed is the first kept
candidate and the sentinel timestamp is `0` (`datetime.min`).  An empty
candidate list is the failure case (`filtered[0]` raises in the source),
embedded as `none`. -/
def get_best_match (candidates : List PlayerStats) (min_mmr max_mmr : Int) :
    Option PlayerStats :=
  match keptCandidates candidates min_mmr max_mmr with
  | [] => none
  | first :: rest => some ((first :: rest).foldl (fun acc m => scanTeams m acc) (first, 0)).1

/-- All played timestamps of one candidate, in team order. -/
def playedTs (c : PlayerStats) : List Int := c.teams.filterMap (·.lastPlayed)

/-- Latest played timestamp of one candidate, measured from the sentinel
`0`: `0` exactly when the candidate has no positive played timestamp. -/
def cmax (c : PlayerStats) : Int := (playedTs c).foldl max 0

/-- Maximum of a list of timestamps, `none` on the empty list. -/
def optMax (l : List Int) : Option Int :=
  l.foldl (fun acc d => some (acc.elim d (fun a => max a d))) none

/-- The specification's notion (§4.5) of a candidate's most recent team
`last-played` timestamp: `none` when the candidate has no played
timestamp. -/
def latestPlayed (c : PlayerStats) : Option Int := optMax (playedTs c)

/-- The resolver selection rule as the specification words it (§4.5):
keep the candidates whose current rating lies in the hint range, fall back
to the full list when none does, then return the first candidate whose
most recent team `last-played` timestamp attains the latest such timestamp
over the kept candidates, defaulting to the first kept candidate when no
kept candidate has any played timestamp. -/
def specResolve (candidates : List PlayerStats) (min_mmr max_mmr : Int) :
    Option PlayerStats :=
  match keptCandidates candidates min_mmr max_mmr with
  | [] => none
  | first :: rest =>
    match optMax ((first :: rest).filterMap latestPlayed) with
    | none => some first
    | some M => (first :: rest).find? (fun c => latestPlayed c == some M)

/-- Positivity of all of a candidate's played timestamps (genuine
`datetime` values are strictly later than the `datetime.min` sentinel). -/
def PosTs (c : PlayerStats) : Prop := ∀ d ∈ playedTs c, 0 < d

instance (c : PlayerStats) : Decidable (PosTs c) := by
  unfold PosTs; infer_instance

end ScMatchBriefer

namespace SmurfSniper

open ScMatchBriefer in
/-- Alias: the team observations of `members.character.teams` as read by the
smurfsniper analytics. -/
abbrev TeamObs := ScMatchBriefer.TeamObservation

/-- One teammate's accumulator entry (`{"count": ..., "last_played": ...}`,
`smurfsniper/analyze.py`, line 245). -/
structure TeammateEntry where
  count : Nat
  last_played : Option Int
  deriving Repr, DecidableEq

/-- Lookup by teammate name in the insertion-ordered table (Python dict
access by key). -/
def lookupName (n : String) : List (String × TeammateEntry) → Option TeammateEntry
  | [] => none
  | kv :: rest => if kv.1 = n then some kv.2 else lookupName n rest

/-- The per-occurrence update of `PlayerAnalysis.teammates`
(`smurfsniper/analyze.py`, lines 245–248): increment the count and keep the
later last-played timestamp. -/
def bumpEntry (e : TeammateEntry) (ts : Int) : TeammateEntry :=
  { count := e.count + 1
    last_played :=
      match e.last_played with
      | none => some ts
      | some m => if m < ts then some ts else some m }

/-- `result.setdefault(n, {"count": 0, "last_played": None})` followed by
the update (`smurfsniper/analyze.py`, lines 245–248), on the
insertion-ordered table: update the existing entry in place, or append a
fresh one at the end. -/
def upsertTeammate (acc : List (String × TeammateEntry)) (n : String) (ts : Int) :
    List (String × TeammateEntry) :=
  match lookupName n acc with
  | some _ => acc.map (fun kv => if kv.1 = n then (kv.1, bumpEntry kv.2 ts) else kv)
  | none => acc ++ [(n, bumpEntry ⟨0, none⟩ ts)]

/-- The team/member loop of `PlayerAnalysis.teammates`
(`smurfsniper/analyze.py`, lines 232–250): teams without a last-played
timestamp are skipped, the subject's own name is skipped, every other
member occurrence bumps that name's entry. -/
def teammatesCore (teams : List TeamObs) (my_name : String) :
    List (String × TeammateEntry) :=
  teams.foldl (fun result team =>
    match team.lastPlayed with
    | none => result
    | some ts =>
      team.members.foldl (fun result m =>
        if m.name = my_name then result else upsertTeammate result m.name ts) result) []

/-- `PlayerAnalysis.teammates` (`smurfsniper/analyze.py`, lines 223–250):
an absent match history short-circuits to the empty table
(`if not history: return {}`); otherwise the team/member loop runs. -/
def teammates (match_history : Option (List ℚ)) (teams : List TeamObs)
    (my_name : String) : List (String × TeammateEntry) :=
  match match_history with
  | none => []
  | some _ => teammatesCore teams my_name

/-- The member occurrences the specification counts (§4.6): one
`(name, last-played)` event per member of each timestamped team, the
subject excluded, in traversal order. -/
def eventsOf (teams : List TeamObs) (my_name : String) : List (String × Int) :=
  teams.flatMap (fun t =>
    match t.lastPlayed with
    | none => []
    | some ts => (t.members.filter (fun m => m.name ≠ my_name)).map (fun m => (m.name, ts)))

/-- First-seen (insertion) order of a name stream (§4.6). -/
def firstSeen (l : List String) : List String :=
  l.foldl (fun ks n => if n ∈ ks then ks else ks ++ [n]) []

/-- The last-played timestamps of one teammate's occurrences (§4.6), with
multiplicity, in traversal order. -/
def occTs (teams : List TeamObs) (my_name n : String) : List Int :=
  ((eventsOf teams my_name).filter (fun p => p.1 = n)).map Prod.snd

/-- Keys of the accumulator table, in insertion order. -/
def keysOf (t : List (String × TeammateEntry)) : List String := t.map Prod.fst

/-- Cumulative effect of a stream of timestamps on one entry slot. -/
def applyTss (e0 : Option TeammateEntry) (l : List Int) : Option TeammateEntry :=
  l.foldl (fun oe ts => some (bumpEntry (oe.getD ⟨0, none⟩) ts)) e0

end SmurfSniper

namespace SmurfSniper

/-- `NoTeamFound` (`smurfsniper/analyze/teams.py`, lines 11–13): "raised
when no matching team could be constructed for the given players".  A
team-level error, distinct by type from the player-level not-found failure
of the resolver (which is the `none` outcome of `get_best_match`). -/
inductive NoTeamFound where
  | noTeamFound
  deriving Repr, DecidableEq

/-- Modelled from the spec: `Team.merge` lives in
`smurfsniper/models/team.py`, which is not under `src/`; §3 says only that
"multiple TeamObservations belonging to the same logical team (same member
set) are merged into one", so the merged team is modelled as the bundle of
the matching observations. -/
structure MergedTeam where
  observations : List ScMatchBriefer.TeamObservation
  deriving Repr, DecidableEq

/-- Modelled from the spec: the merge of a list of observations of one
logical team (§3); `smurfsniper/models/team.py` is not under `src/`. -/
def Team.merge (found : List ScMatchBriefer.TeamObservation) : MergedTeam :=
  ⟨found⟩

/-- Python `sorted` on a list of ids
(`smurfsniper/analyze/teams.py`, lines 33 and 38). -/
def sortedIds (l : List Int) : List Int := l.insertionSort (· ≤ ·)

/-- The `found` accumulation of `TeamAnalysis.from_players_stats`
(`smurfsniper/analyze/teams.py`, lines 35–40): every historical team, over
every player's team list in order, whose sorted member ids equal the sorted
roster ids. -/
def matchingObservations (player_stats : List ScMatchBriefer.PlayerStats) :
    List ScMatchBriefer.TeamObservation :=
  let ids := sortedIds (player_stats.map (·.battlenetId))
  player_stats.flatMap (fun ps =>
    ps.teams.filter (fun t => sortedIds (t.members.map (·.battlenetId)) = ids))

/-- `TeamAnalysis.from_players_stats` (`smurfsniper/analyze/teams.py`,
lines 31–43): collect every historical team matching the requested roster;
raise `NoTeamFound` when none matches, otherwise merge the matches. -/
def from_players_stats (player_stats : List ScMatchBriefer.PlayerStats) :
    Except NoTeamFound MergedTeam :=
  let found := matchingObservations player_stats
  if found.isEmpty then .error .noTeamFound else .ok (Team.merge found)

/-- The reconstruction contract as the specification words it (§7
`AmbiguousTeamMatch`): fail with the team-level error exactly when no
historical team's member set matches the requested roster, otherwise return
the merged team built from all matching observations. -/
def specTeamRecon (player_stats : List ScMatchBriefer.PlayerStats) :
    Except NoTeamFound MergedTeam :=
  if ∃ ps ∈ player_stats, ∃ t ∈ ps.teams,
      sortedIds (t.members.map (·.battlenetId)) =
        sortedIds (player_stats.map (·.battlenetId)) then
    .ok (Team.merge (matchingObservations player_stats))
  else .error .noTeamFound

end SmurfSniper

namespace ScMatchBriefer

theorem foldl_dedupStep_eq (pts : List TeamHistoryPoint) :
    ∀ (acc : List TeamHistoryPoint) (last : Option Int),
      (pts.foldl dedupStep (acc, last)).1 = acc ++ dedupAdj last pts := by
  induction pts with
  | nil => intro acc last; simp [dedupAdj]
  | cons p rest ih =>
    intro acc last
    by_cases h : last = some p.timestamp
    · simp [List.foldl_cons, dedupStep, h, dedupAdj, ih]
    · simp [List.foldl_cons, dedupStep, h, dedupAdj, ih, List.append_assoc]

theorem normalizeStep_eq (pts : List TeamHistoryPoint) :
    normalizeStep pts = dedupAdj none (sortByTimestamp pts) := by
  simpa using foldl_dedupStep_eq (sortByTimestamp pts) [] none

theorem mem_dedupAdj {p : TeamHistoryPoint} :
    ∀ {last : Option Int} {l : List TeamHistoryPoint}, p ∈ dedupAdj last l → p ∈ l := by
  intro last l
  induction l generalizing last with
  | nil => simp [dedupAdj]
  | cons q rest ih =>
    intro hp
    unfold dedupAdj at hp
    split at hp
    · exact List.mem_cons_of_mem _ (ih hp)
    · rcases List.mem_cons.1 hp with h | h
      · exact h ▸ List.mem_cons_self _ _
      · exact List.mem_cons_of_mem _ (ih h)

theorem dedupAdj_ts_gt {l : List TeamHistoryPoint} (hs : l.Sorted tsLE) {t : Int}
    (hge : ∀ q ∈ l, t ≤ q.timestamp) :
    ∀ p ∈ dedupAdj (some t) l, t < p.timestamp := by
  induction l generalizing t with
  | nil => simp [dedupAdj]
  | cons q rest ih =>
    have hqt : t ≤ q.timestamp := hge q (List.mem_cons_self _ _)
    have hrest : ∀ x ∈ rest, q.timestamp ≤ x.timestamp := fun x hx =>
      List.rel_of_sorted_cons hs x hx
    by_cases h : t = q.timestamp
    · intro p hp
      rw [dedupAdj, if_pos (by rw [h])] at hp
      exact ih hs.tail (fun x hx => h ▸ hrest x hx) p hp
    · have htq : t < q.timestamp := lt_of_le_of_ne hqt h
      intro p hp
      rw [dedupAdj, if_neg (by simpa using h)] at hp
      rcases List.mem_cons.1 hp with hpq | hp
      · exact hpq ▸ htq
      · exact lt_trans htq (ih hs.tail hrest p hp)

theorem dedupAdj_strict {l : List TeamHistoryPoint} (hs : l.Sorted tsLE) :
    ∀ last : Option Int,
      (dedupAdj last l).Pairwise (fun p q => p.timestamp < q.timestamp) := by
  induction l with
  | nil => intro last; simp [dedupAdj]
  | cons q rest ih =>
    intro last
    have hrest : ∀ x ∈ rest, q.timestamp ≤ x.timestamp := fun x hx =>
      List.rel_of_sorted_cons hs x hx
    by_cases h : last = some q.timestamp
    · rw [dedupAdj, if_pos h]
      exact ih hs.tail last
    · rw [dedupAdj, if_neg h]
      refine List.pairwise_cons.2 ⟨?_, ih hs.tail (some q.timestamp)⟩
      intro p hp
      exact dedupAdj_ts_gt hs.tail hrest p hp

theorem dedupAdj_complete {l : List TeamHistoryPoint} (hs : l.Sorted tsLE) {t : Int}
    (hge : ∀ q ∈ l, t ≤ q.timestamp) :
    ∀ q ∈ l, q.timestamp = t ∨ ∃ p ∈ dedupAdj (some t) l, p.timestamp = q.timestamp := by
  induction l generalizing t with
  | nil => simp
  | cons b rest ih =>
    have hrest : ∀ x ∈ rest, b.timestamp ≤ x.timestamp := fun x hx =>
      List.rel_of_sorted_cons hs x hx
    intro q hq
    by_cases h : t = b.timestamp
    · rw [dedupAdj, if_pos (by rw [h])]
      rcases List.mem_cons.1 hq with hqb | hq
      · exact Or.inl (by rw [hqb, h])
      · exact ih hs.tail (fun x hx => h ▸ hrest x hx) q hq
    · rw [dedupAdj, if_neg (by simpa using h)]
      rcases List.mem_cons.1 hq with hqb | hq
      · exact Or.inr ⟨b, List.mem_cons_self _ _, by rw [hqb]⟩
      · rcases ih hs.tail hrest q hq with heq | ⟨p, hp, hpq⟩
        · exact Or.inr ⟨b, List.mem_cons_self _ _, heq.symm⟩
        · exact Or.inr ⟨p, List.mem_cons_of_mem _ hp, hpq⟩

theorem dedupAdj_none_complete {l : List TeamHistoryPoint} (hs : l.Sorted tsLE) :
    ∀ q ∈ l, ∃ p ∈ dedupAdj none l, p.timestamp = q.timestamp := by
  cases l with
  | nil => simp
  | cons b rest =>
    intro q hq
    rw [dedupAdj, if_neg (by simp)]
    have hrest : ∀ x ∈ rest, b.timestamp ≤ x.timestamp := fun x hx =>
      List.rel_of_sorted_cons hs x hx
    rcases List.mem_cons.1 hq with hqb | hq
    · exact ⟨b, List.mem_cons_self _ _, by rw [hqb]⟩
    · rcases dedupAdj_complete hs.tail hrest q hq with heq | ⟨p, hp, hpq⟩
      · exact ⟨b, List.mem_cons_self _ _, heq.symm⟩
      · exact ⟨p, List.mem_cons_of_mem _ hp, hpq⟩

theorem dedupAdj_head_of_run {l : List TeamHistoryPoint} (hs : l.Sorted tsLE) {t : Int}
    (hge : ∀ q ∈ l, t ≤ q.timestamp) :
    ∀ p ∈ dedupAdj (some t) l,
      (l.filter (fun q => q.timestamp = p.timestamp)).head? = some p := by
  induction l generalizing t with
  | nil => simp [dedupAdj]
  | cons b rest ih =>
    have hrest : ∀ x ∈ rest, b.timestamp ≤ x.timestamp := fun x hx =>
      List.rel_of_sorted_cons hs x hx
    intro p hp
    by_cases h : t = b.timestamp
    · rw [dedupAdj, if_pos (by rw [h])] at hp
      have hgt : t < p.timestamp :=
        dedupAdj_ts_gt hs.tail (fun x hx => h ▸ hrest x hx) p hp
      have hne : ¬ (b.timestamp = p.timestamp) := by
        rw [← h]; exact ne_of_lt hgt
      rw [List.filter_cons, if_neg (by simpa using hne)]
      exact ih hs.tail (fun x hx => h ▸ hrest x hx) p hp
    · rw [dedupAdj, if_neg (by simpa using h)] at hp
      rcases List.mem_cons.1 hp with hpb | hp
      · subst hpb
        rw [List.filter_cons, if_pos (by simp)]
        rfl
      · have hgt : b.timestamp < p.timestamp := dedupAdj_ts_gt hs.tail hrest p hp
        rw [List.filter_cons, if_neg (by simpa using ne_of_lt hgt)]
        exact ih hs.tail hrest p hp

theorem dedupAdj_none_head_of_run {l : List TeamHistoryPoint} (hs : l.Sorted tsLE) :
    ∀ p ∈ dedupAdj none l,
      (l.filter (fun q => q.timestamp = p.timestamp)).head? = some p := by
  cases l with
  | nil => simp [dedupAdj]
  | cons b rest =>
    intro p hp
    rw [dedupAdj, if_neg (by simp)] at hp
    have hrest : ∀ x ∈ rest, b.timestamp ≤ x.timestamp := fun x hx =>
      List.rel_of_sorted_cons hs x hx
    rcases List.mem_cons.1 hp with hpb | hp
    · subst hpb
      rw [List.filter_cons, if_pos (by simp)]
      rfl
    · have hgt : b.timestamp < p.timestamp := dedupAdj_ts_gt hs.tail hrest p hp
      rw [List.filter_cons, if_neg (by simpa using ne_of_lt hgt)]
      exact dedupAdj_head_of_run hs.tail hrest p hp

theorem filter_orderedInsert_ne (t : Int) (p : TeamHistoryPoint)
    (hne : ¬ (p.timestamp = t)) :
    ∀ l : List TeamHistoryPoint,
      (l.orderedInsert tsLE p).filter (fun q => q.timestamp = t) =
        l.filter (fun q => q.timestamp = t) := by
  intro l
  induction l with
  | nil => simp [List.orderedInsert, hne]
  | cons b rest ih =>
    rw [List.orderedInsert]
    by_cases h : tsLE p b
    · rw [if_pos h, List.filter_cons, if_neg (by simpa using hne)]
    · rw [if_neg h, List.filter_cons, List.filter_cons, ih]

theorem filter_orderedInsert_eq (t : Int) (p : TeamHistoryPoint)
    (heq : p.timestamp = t) :
    ∀ l : List TeamHistoryPoint,
      (l.orderedInsert tsLE p).filter (fun q => q.timestamp = t) =
        p :: l.filter (fun q => q.timestamp = t) := by
  intro l
  induction l with
  | nil => simp [List.orderedInsert, heq]
  | cons b rest ih =>
    rw [List.orderedInsert]
    by_cases h : tsLE p b
    · rw [if_pos h, List.filter_cons, if_pos (by simpa using heq)]
    · have hbt : ¬ (b.timestamp = t) := by
        intro hb
        exact h (le_of_lt (by
          have : b.timestamp < p.timestamp := by
            by_contra hc
            exact h (by unfold tsLE; omega)
          omega))
      rw [if_neg h, List.filter_cons, if_neg (by simpa using hbt),
        List.filter_cons, if_neg (by simpa using hbt), ih]

/-- Stability of the embedded sort: the subsequence of points carrying any
fixed timestamp is unchanged by sorting, exactly as for Python's stable
`list.sort`. -/
theorem sortByTimestamp_stable (pts : List TeamHistoryPoint) (t : Int) :
    (sortByTimestamp pts).filter (fun q => q.timestamp = t) =
      pts.filter (fun q => q.timestamp = t) := by
  induction pts with
  | nil => rfl
  | cons p rest ih =>
    show ((rest.insertionSort tsLE).orderedInsert tsLE p).filter _ = _
    simp only [sortByTimestamp] at ih
    by_cases h : p.timestamp = t
    · rw [filter_orderedInsert_eq t p h, ih, List.filter_cons, if_pos (by simpa using h)]
    · rw [filter_orderedInsert_ne t p h, ih, List.filter_cons, if_neg (by simpa using h)]

theorem sorted_sortByTimestamp (pts : List TeamHistoryPoint) :
    (sortByTimestamp pts).Sorted tsLE :=
  List.sorted_insertionSort tsLE pts

theorem dedupAdj_of_strict {l : List TeamHistoryPoint}
    (h : l.Pairwise (fun p q => p.timestamp < q.timestamp)) :
    ∀ t : Int, (∀ q ∈ l, t < q.timestamp) → dedupAdj (some t) l = l := by
  induction l with
  | nil => intro t _; rfl
  | cons b rest ih =>
    intro t ht
    have hb : t < b.timestamp := ht b (List.mem_cons_self _ _)
    rw [dedupAdj, if_neg (by simp; omega)]
    rw [ih (List.pairwise_cons.1 h).2 b.timestamp (List.pairwise_cons.1 h).1]

theorem dedupAdj_none_of_strict {l : List TeamHistoryPoint}
    (h : l.Pairwise (fun p q => p.timestamp < q.timestamp)) :
    dedupAdj none l = l := by
  cases l with
  | nil => rfl
  | cons b rest =>
    rw [dedupAdj, if_neg (by simp)]
    rw [dedupAdj_of_strict (List.pairwise_cons.1 h).2 b.timestamp (List.pairwise_cons.1 h).1]

/-- C4 counterexample: on empty input `get_match_history` returns `None`
(no history), not an empty sequence, so the claim's "empty input returns an
empty sequence" is false on the code. -/
theorem get_match_history_nil :
    get_match_history ([] : List TeamHistoryPoint) = none ∧
      get_match_history ([] : List TeamHistoryPoint) ≠ some [] := by
  exact ⟨rfl, by simp [get_match_history]⟩

/-- C4 (amended): on every nonempty input the normalizer returns a sequence
strictly sorted ascending by timestamp, covering exactly the input's
timestamps, and keeping for each timestamp the first pair encountered in
stable sort order (equivalently, in input order); empty input returns
`None` — no history — rather than an error or an empty sequence. -/
theorem get_match_history_spec :
    (∀ pts : List TeamHistoryPoint, pts ≠ [] →
      ∃ l, get_match_history pts = some l ∧
        l.Pairwise (fun p q => p.timestamp < q.timestamp) ∧
        (∀ t : Int, (∃ p ∈ l, p.timestamp = t) ↔ ∃ p ∈ pts, p.timestamp = t) ∧
        (∀ p ∈ l, (pts.filter (fun q => q.timestamp = p.timestamp)).head? = some p)) ∧
      get_match_history ([] : List TeamHistoryPoint) = none := by
  refine ⟨?_, rfl⟩
  intro pts hne
  have hs : (sortByTimestamp pts).Sorted tsLE := sorted_sortByTimestamp pts
  refine ⟨normalizeStep pts, ?_, ?_, ?_, ?_⟩
  · rw [get_match_history, if_neg (by simpa using hne)]
  · rw [normalizeStep_eq]
    exact dedupAdj_strict hs none
  · intro t
    rw [normalizeStep_eq]
    constructor
    · rintro ⟨p, hp, hpt⟩
      exact ⟨p, (List.mem_insertionSort tsLE).1 (mem_dedupAdj hp), hpt⟩
    · rintro ⟨p, hp, hpt⟩
      have hp2 : p ∈ sortByTimestamp pts := (List.mem_insertionSort tsLE).2 hp
      rcases dedupAdj_none_complete hs p hp2 with ⟨q, hq, hqt⟩
      exact ⟨q, hq, by rw [hqt, hpt]⟩
  · intro p hp
    rw [normalizeStep_eq] at hp
    have := dedupAdj_none_head_of_run hs p hp
    rwa [sortByTimestamp_stable] at this

theorem get_match_history_spec_witness :
    ([⟨1, 10⟩] : List TeamHistoryPoint) ≠ [] ∧
      ∃ l, get_match_history [⟨1, 10⟩] = some l ∧
        l.Pairwise (fun p q => p.timestamp < q.timestamp) ∧
        (∀ t : Int, (∃ p ∈ l, p.timestamp = t) ↔
          ∃ p ∈ ([⟨1, 10⟩] : List TeamHistoryPoint), p.timestamp = t) ∧
        (∀ p ∈ l,
          (([⟨1, 10⟩] : List TeamHistoryPoint).filter
            (fun q => q.timestamp = p.timestamp)).head? = some p) :=
  ⟨by simp, get_match_history_spec.1 [⟨1, 10⟩] (by simp)⟩

/-- C8: the sort-and-deduplicate step is the identity on every input that is
already normalized, i.e. strictly sorted ascending by timestamp. -/
theorem normalizeStep_idempotent
    (pts : List TeamHistoryPoint)
    (h : pts.Pairwise (fun p q => p.timestamp < q.timestamp)) :
    normalizeStep pts = pts := by
  have hsorted : pts.Sorted tsLE := by
    exact List.Pairwise.imp (fun hlt => le_of_lt hlt) h
  rw [normalizeStep_eq]
  unfold sortByTimestamp
  rw [List.Sorted.insertionSort_eq hsorted]
  exact dedupAdj_none_of_strict h

theorem normalizeStep_idempotent_witness :
    ([⟨1, 10⟩, ⟨2, 20⟩] : List TeamHistoryPoint).Pairwise
        (fun p q => p.timestamp < q.timestamp) ∧
      normalizeStep [⟨1, 10⟩, ⟨2, 20⟩] = [⟨1, 10⟩, ⟨2, 20⟩] :=
  ⟨by decide, normalizeStep_idempotent _ (by decide)⟩

theorem foldl_max_le_init : ∀ (l : List Int) (n : Int), n ≤ l.foldl max n := by
  intro l
  induction l with
  | nil => intro n; exact le_refl n
  | cons d rest ih =>
    intro n
    exact le_trans (le_max_left n d) (ih (max n d))

theorem foldl_max_mem_le : ∀ (l : List Int) (n x : Int), x ∈ l → x ≤ l.foldl max n := by
  intro l
  induction l with
  | nil => intro n x hx; cases hx
  | cons d rest ih =>
    intro n x hx
    rw [List.foldl_cons]
    rcases List.mem_cons.1 hx with h | h
    · subst h
      exact le_trans (le_max_right n x) (foldl_max_le_init rest (max n x))
    · exact ih (max n d) x h

theorem foldl_max_eq_or_mem : ∀ (l : List Int) (n : Int),
    l.foldl max n = n ∨ l.foldl max n ∈ l := by
  intro l
  induction l with
  | nil => intro n; exact Or.inl rfl
  | cons d rest ih =>
    intro n
    rw [List.foldl_cons]
    rcases ih (max n d) with h | h
    · rw [h]
      rcases max_cases n d with ⟨hm, _⟩ | ⟨hm, _⟩
      · exact Or.inl hm
      · exact Or.inr (by rw [hm]; exact List.mem_cons_self _ _)
    · exact Or.inr (List.mem_cons_of_mem _ h)

theorem foldl_max_shift : ∀ (l : List Int) (n : Int), 0 ≤ n → (∀ d ∈ l, 0 < d) →
    l.foldl max n = max n (l.foldl max 0) := by
  intro l
  induction l with
  | nil => intro n hn _; simp; omega
  | cons d rest ih =>
    intro n hn hpos
    have hd : 0 < d := hpos d (List.mem_cons_self _ _)
    have hrest : ∀ x ∈ rest, 0 < x := fun x hx => hpos x (List.mem_cons_of_mem _ hx)
    rw [List.foldl_cons, List.foldl_cons,
      ih (max n d) (le_trans hn (le_max_left n d)) hrest,
      ih (max 0 d) (le_max_left 0 d) hrest]
    rcases foldl_max_eq_or_mem rest 0 with h | h
    · omega
    · have := hrest _ h
      omega

theorem optMax_aux : ∀ (l : List Int) (a : Int),
    l.foldl (fun acc d => some (acc.elim d (fun x => max x d))) (some a) =
      some (l.foldl max a) := by
  intro l
  induction l with
  | nil => intro a; rfl
  | cons d rest ih => intro a; exact ih (max a d)

theorem optMax_eq : ∀ l : List Int,
    optMax l = match l with
      | [] => none
      | d :: rest => some (rest.foldl max d) := by
  intro l
  cases l with
  | nil => rfl
  | cons d rest => exact optMax_aux rest d

theorem optMax_spec (l : List Int) (hne : l ≠ []) :
    ∃ m, optMax l = some m ∧ m ∈ l ∧ ∀ x ∈ l, x ≤ m := by
  cases l with
  | nil => exact absurd rfl hne
  | cons d rest =>
    refine ⟨rest.foldl max d, by rw [optMax_eq], ?_, ?_⟩
    · rcases foldl_max_eq_or_mem rest d with h | h
      · rw [h]; exact List.mem_cons_self _ _
      · exact List.mem_cons_of_mem _ h
    · intro x hx
      rcases List.mem_cons.1 hx with h | h
      · exact h ▸ foldl_max_le_init rest d
      · exact foldl_max_mem_le rest d x h

theorem cmax_nonneg (c : PlayerStats) : 0 ≤ cmax c :=
  foldl_max_le_init (playedTs c) 0

theorem latestPlayed_none_iff (c : PlayerStats) :
    latestPlayed c = none ↔ playedTs c = [] := by
  unfold latestPlayed
  rw [optMax_eq]
  cases playedTs c <;> simp

theorem latestPlayed_of_pos (c : PlayerStats) (hpos : PosTs c) :
    (cmax c = 0 → latestPlayed c = none) ∧
      (0 < cmax c → latestPlayed c = some (cmax c)) := by
  unfold latestPlayed cmax
  rw [optMax_eq]
  cases hp : playedTs c with
  | nil => simp
  | cons d rest =>
    have hd : 0 < d := hpos d (hp ▸ List.mem_cons_self _ _)
    have hrest : ∀ x ∈ rest, 0 < x := fun x hx =>
      hpos x (hp ▸ List.mem_cons_of_mem _ hx)
    have hshift : (d :: rest).foldl max 0 = rest.foldl max d := by
      rw [List.foldl_cons, foldl_max_shift rest (max 0 d) (le_max_left 0 d) hrest,
        foldl_max_shift rest d (le_of_lt hd) hrest]
      omega
    constructor
    · intro h0
      rw [hshift] at h0
      have := foldl_max_le_init rest d
      omega
    · intro _
      rw [hshift]

theorem scanTeams_eq (m : PlayerStats) :
    ∀ (teams : List TeamObservation) (b : PlayerStats) (n : Int),
      teams.foldl (fun acc2 team =>
        match team.lastPlayed with
        | none => acc2
        | some dt => if acc2.2 < dt then (m, dt) else acc2) (b, n) =
      (if n < (teams.filterMap (·.lastPlayed)).foldl max n then m else b,
        (teams.filterMap (·.lastPlayed)).foldl max n) := by
  intro teams
  induction teams with
  | nil => intro b n; simp
  | cons t rest ih =>
    intro b n
    rw [List.foldl_cons]
    cases ht : t.lastPlayed with
    | none =>
      simp only [List.filterMap_cons, ht]
      exact ih b n
    | some dt =>
      simp only [List.filterMap_cons, ht, List.foldl_cons]
      by_cases hlt : n < dt
      · rw [if_pos hlt, ih m dt, max_eq_right (le_of_lt hlt)]
        have hle : dt ≤ (rest.filterMap (·.lastPlayed)).foldl max dt :=
          foldl_max_le_init _ _
        rw [if_pos (show n < (rest.filterMap (·.lastPlayed)).foldl max dt by omega)]
        split <;> rfl
      · rw [if_neg hlt, ih b n, max_eq_left (by omega)]

theorem scanTeams_spec (m : PlayerStats) (b : PlayerStats) (n : Int) :
    scanTeams m (b, n) =
      (if n < (playedTs m).foldl max n then m else b, (playedTs m).foldl max n) :=
  scanTeams_eq m m.teams b n

theorem outer_foldl :
    ∀ (L : List PlayerStats) (b : PlayerStats) (n : Int), 0 ≤ n →
      (∀ c ∈ L, PosTs c) →
      L.foldl (fun acc m => scanTeams m acc) (b, n) =
        (if n < (L.map cmax).foldl max n then
            ((L.find? (fun c => cmax c == (L.map cmax).foldl max n)).getD b)
          else b,
          (L.map cmax).foldl max n) := by
  intro L
  induction L with
  | nil => intro b n _ _; simp
  | cons c L ih =>
    intro b n hn hpos
    have hc : PosTs c := hpos c (List.mem_cons_self _ _)
    have hL : ∀ x ∈ L, PosTs x := fun x hx => hpos x (List.mem_cons_of_mem _ hx)
    rw [List.foldl_cons, scanTeams_spec]
    have hshift : (playedTs c).foldl max n = max n (cmax c) :=
      foldl_max_shift (playedTs c) n hn hc
    have hcond : (n < max n (cmax c)) ↔ (n < cmax c) := by omega
    rw [hshift, if_congr hcond rfl rfl]
    set n1 := max n (cmax c) with hn1
    have hn1n : n ≤ n1 := le_max_left _ _
    have hn1nonneg : 0 ≤ n1 := le_trans hn hn1n
    rw [ih _ n1 hn1nonneg hL]
    have hNeq : ((c :: L).map cmax).foldl max n = (L.map cmax).foldl max n1 := by
      rw [List.map_cons, List.foldl_cons]
    set N := (L.map cmax).foldl max n1 with hN
    have hn1N : n1 ≤ N := foldl_max_le_init _ _
    have hcN : cmax c ≤ N := le_trans (le_max_right n (cmax c)) hn1N
    rw [hNeq]
    by_cases hnN : n < N
    · rw [if_pos hnN]
      by_cases hcm : cmax c = N
      · have hfind : (c :: L).find? (fun x => cmax x == N) = some c := by
          rw [List.find?_cons_of_pos]
          simp [hcm]
        rw [hfind]
        have hn1eq : n1 = N := by omega
        rw [if_neg (by omega)]
        simp only [Option.getD_some]
        rw [if_pos (by omega)]
      · have hfind : (c :: L).find? (fun x => cmax x == N) = L.find? (fun x => cmax x == N) := by
          rw [List.find?_cons_of_neg]
          simp [hcm]
        rw [hfind]
        have hcmlt : cmax c < N := lt_of_le_of_ne hcN hcm
        have hn1lt : n1 < N := by omega
        rw [if_pos hn1lt]
        have hmem : N ∈ L.map cmax := by
          rcases foldl_max_eq_or_mem (L.map cmax) n1 with h | h
          · omega
          · exact h
        rcases List.mem_map.1 hmem with ⟨x, hx, hxN⟩
        have hfs : (L.find? (fun y => cmax y == N)).isSome := by
          rw [List.find?_isSome]
          exact ⟨x, hx, by simp [hxN]⟩
        rcases Option.isSome_iff_exists.1 hfs with ⟨y, hy⟩
        rw [hy]
        rfl
    · rw [if_neg hnN]
      have hn1N' : n1 = N := by omega
      rw [if_neg (by omega)]
      have : ¬ n < cmax c := by omega
      rw [if_neg this]

theorem find?_congr_pred {α : Type} (l : List α) (p q : α → Bool)
    (h : ∀ x ∈ l, p x = q x) : l.find? p = l.find? q := by
  induction l with
  | nil => rfl
  | cons a rest ih =>
    have ha := h a (List.mem_cons_self _ _)
    by_cases hp : p a
    · rw [List.find?_cons_of_pos _ hp, List.find?_cons_of_pos _ (ha ▸ hp)]
    · rw [List.find?_cons_of_neg _ hp,
        List.find?_cons_of_neg _ (by rw [← ha]; exact hp),
        ih (fun x hx => h x (List.mem_cons_of_mem _ hx))]

theorem resolve_kept (L : List PlayerStats) (first : PlayerStats)
    (hpos : ∀ c ∈ L, PosTs c) :
    some ((L.foldl (fun acc m => scanTeams m acc) (first, 0)).1) =
      match optMax (L.filterMap latestPlayed) with
      | none => some first
      | some M => L.find? (fun c => latestPlayed c == some M) := by
  have h0 : (0 : Int) ≤ 0 := le_refl 0
  rw [outer_foldl L first 0 h0 hpos]
  set N := (L.map cmax).foldl max 0 with hN
  have hNnonneg : (0 : Int) ≤ N := foldl_max_le_init _ _
  by_cases hN0 : N = 0
  · have hall : ∀ c ∈ L, cmax c = 0 := by
      intro c hc
      have h1 : cmax c ≤ N := foldl_max_mem_le _ _ _ (List.mem_map_of_mem _ hc)
      have h2 : 0 ≤ cmax c := cmax_nonneg c
      omega
    have hfm : L.filterMap latestPlayed = [] := by
      rw [List.filterMap_eq_nil_iff]
      intro c hc
      exact (latestPlayed_of_pos c (hpos c hc)).1 (hall c hc)
    rw [hfm]
    show some (if (0 : Int) < N then _ else first) = some first
    rw [if_neg (by omega)]
  · have hNpos : 0 < N := by omega
    have hmem : N ∈ L.map cmax := by
      rcases foldl_max_eq_or_mem (L.map cmax) 0 with h | h
      · omega
      · exact h
    rcases List.mem_map.1 hmem with ⟨x, hx, hxN⟩
    have hlx : latestPlayed x = some N :=
      hxN ▸ (latestPlayed_of_pos x (hpos x hx)).2 (by omega)
    have hinm : N ∈ L.filterMap latestPlayed :=
      List.mem_filterMap.2 ⟨x, hx, hlx⟩
    have hfm_ne : L.filterMap latestPlayed ≠ [] := by
      intro h
      rw [h] at hinm
      cases hinm
    rcases optMax_spec _ hfm_ne with ⟨m, hm, hmmem, hub⟩
    have hmN : m = N := by
      rcases List.mem_filterMap.1 hmmem with ⟨y, hy, hly⟩
      have hyN : cmax y ≤ N := foldl_max_mem_le _ _ _ (List.mem_map_of_mem _ hy)
      have : m = cmax y := by
        by_cases hy0 : cmax y = 0
        · rw [(latestPlayed_of_pos y (hpos y hy)).1 hy0] at hly
          cases hly
        · have := (latestPlayed_of_pos y (hpos y hy)).2
            (lt_of_le_of_ne (cmax_nonneg y) (Ne.symm hy0))
          rw [this] at hly
          exact (Option.some_inj.1 hly).symm
      have hNm : N ≤ m := hub N hinm
      omega
    rw [hm, hmN]
    have hpred : ∀ c ∈ L, (latestPlayed c == some N) = (cmax c == N) := by
      intro c hc
      by_cases hc0 : cmax c = 0
      · rw [(latestPlayed_of_pos c (hpos c hc)).1 hc0]
        simp [hc0]
        omega
      · rw [(latestPlayed_of_pos c (hpos c hc)).2
          (lt_of_le_of_ne (cmax_nonneg c) (Ne.symm hc0))]
        simp
    show some (if (0 : Int) < N then ((L.find? (fun c => cmax c == N)).getD first) else _) =
      L.find? (fun c => latestPlayed c == some N)
    rw [if_pos hNpos, find?_congr_pred L _ _ hpred]
    have hfs : (L.find? (fun c => cmax c == N)).isSome := by
      rw [List.find?_isSome]
      exact ⟨x, hx, by simp [hxN]⟩
    rcases Option.isSome_iff_exists.1 hfs with ⟨y, hy⟩
    rw [hy]
    rfl

theorem keptCandidates_ne_nil (candidates : List PlayerStats) (mn mx : Int)
    (h : candidates ≠ []) : keptCandidates candidates mn mx ≠ [] := by
  unfold keptCandidates
  cases hf : candidates.filter (ratingInRange mn mx) with
  | nil => simpa using h
  | cons c cs => simp

theorem mem_keptCandidates {candidates : List PlayerStats} {mn mx : Int} :
    ∀ c ∈ keptCandidates candidates mn mx, c ∈ candidates := by
  intro c hc
  unfold keptCandidates at hc
  by_cases hf : (candidates.filter (ratingInRange mn mx)).isEmpty
  · rw [if_pos hf] at hc; exact hc
  · rw [if_neg hf] at hc; exact List.mem_of_mem_filter hc

/-- C2: the resolver keeps the candidates whose current rating lies in the
hint range, falls back to the full list when none does, and among the kept
candidates returns the first one whose latest team `last-played` timestamp
attains the maximum, defaulting to the first kept candidate when no kept
candidate has any played timestamp (hypothesis: genuine timestamps are
positive, i.e. later than the `datetime.min` sentinel); in particular,
candidates rated 1200/1800/2200 under hint range [1500, 2100] always
resolve to the 1800-rated candidate, whatever any team timestamps are. -/
theorem get_best_match_spec :
    (∀ (id1 id2 id3 : Int) (t1 t2 t3 : List TeamObservation),
      get_best_match [⟨id1, some 1200, t1⟩, ⟨id2, some 1800, t2⟩, ⟨id3, some 2200, t3⟩]
          1500 2100 = some ⟨id2, some 1800, t2⟩) ∧
    (∀ (candidates : List PlayerStats) (min_mmr max_mmr : Int),
      (∀ c ∈ candidates, PosTs c) →
      get_best_match candidates min_mmr max_mmr =
        specResolve candidates min_mmr max_mmr) := by
  constructor
  · intro id1 id2 id3 t1 t2 t3
    have hkept : keptCandidates
        [⟨id1, some 1200, t1⟩, ⟨id2, some 1800, t2⟩, ⟨id3, some 2200, t3⟩] 1500 2100 =
        [⟨id2, some 1800, t2⟩] := by
      unfold keptCandidates
      norm_num [List.filter, ratingInRange]
    unfold get_best_match
    rw [hkept]
    show some ((scanTeams ⟨id2, some 1800, t2⟩ (⟨id2, some 1800, t2⟩, 0)).1) = _
    rw [scanTeams_spec]
    split <;> rfl
  · intro candidates mn mx hpos
    have hsub : ∀ c ∈ keptCandidates candidates mn mx, PosTs c := fun c hc =>
      hpos c (mem_keptCandidates c hc)
    unfold get_best_match specResolve
    cases hk : keptCandidates candidates mn mx with
    | nil => rfl
    | cons first rest =>
      rw [hk] at hsub
      exact resolve_kept (first :: rest) first hsub

theorem get_best_match_spec_witness :
    (∀ c ∈ ([⟨7, some 1500, [⟨some 11, []⟩]⟩, ⟨8, some 1600, []⟩] : List PlayerStats),
        PosTs c) ∧
      get_best_match [⟨7, some 1500, [⟨some 11, []⟩]⟩, ⟨8, some 1600, []⟩] 0 5000 =
        specResolve [⟨7, some 1500, [⟨some 11, []⟩]⟩, ⟨8, some 1600, []⟩] 0 5000 :=
  ⟨by decide, get_best_match_spec.2 _ 0 5000 (by decide)⟩

/-- C5: the resolver fails (the source's "no candidates at all" case)
exactly when the candidate search produced zero candidates; at least one
candidate — even one outside the MMR hint range, recovered through the
unfiltered fallback — always yields exactly one record. -/
theorem get_best_match_none_iff :
    ∀ (candidates : List PlayerStats) (mn mx : Int),
      get_best_match candidates mn mx = none ↔ candidates = [] := by
  intro candidates mn mx
  constructor
  · intro h
    by_contra hne
    have hkne := keptCandidates_ne_nil candidates mn mx hne
    unfold get_best_match at h
    cases hk : keptCandidates candidates mn mx with
    | nil => exact hkne hk
    | cons first rest => rw [hk] at h; cases h
  · intro h
    subst h
    rfl


end ScMatchBriefer

namespace SmurfSniper

/-- C1: the smurf heuristic is a pure function of the windowed counts,
evaluating the 3-day, 7-day and lifetime rules in that fixed priority order
and returning the first satisfied rule's single warning; a 3-day window of
4 wins / 1 loss yields the "likely smurf" warning whatever the other
windows hold; and an absent match history yields no warning. -/
theorem smurf_warning_spec :
    (∀ h : Option MatchHistoryCounts, smurf_warning h = h.bind specSmurfDecision) ∧
    (∀ w1 l1 w7 l7 w30 l30 wl ll : Nat,
      smurf_warning (some ⟨w1, l1, 4, 1, w7, l7, w30, l30, wl, ll⟩) =
        some "⚠️ Likely Smurf (3d winrate ≥ 80%)") ∧
    smurf_warning none = none := by
  refine ⟨?_, ?_, rfl⟩
  · intro h
    cases h with
    | none => rfl
    | some h =>
      simp only [smurf_warning, Option.bind_some, specSmurfDecision, specSmurfRule]
      norm_num
  · intro w1 l1 w7 l7 w30 l30 wl ll
    simp only [smurf_warning]
    norm_num

theorem filter_length_mono {α : Type} (l : List α) (p q : α → Bool)
    (h : ∀ x ∈ l, p x = true → q x = true) :
    (l.filter p).length ≤ (l.filter q).length := by
  rw [← List.countP_eq_length_filter, ← List.countP_eq_length_filter]
  exact List.countP_mono_left h

/-- C6: window counts are monotone in the window — for any fixed reference
instant and durations `w1 ≤ w2`, the `w1` win/loss counts never exceed the
`w2` counts, every windowed count is bounded by the lifetime count, an
empty event list yields counts of 0, and the concrete 1d ⊆ 3d ⊆ 7d ⊆ 30d ⊆
lifetime chain holds. -/
theorem windowed_monotone :
    (∀ (events : List OutcomeEvent) (now w1 w2 : Int), w1 ≤ w2 →
      winsInWindow events now w1 ≤ winsInWindow events now w2 ∧
      lossesInWindow events now w1 ≤ lossesInWindow events now w2) ∧
    (∀ (events : List OutcomeEvent) (now w : Int),
      winsInWindow events now w ≤ winsLifetime events ∧
      lossesInWindow events now w ≤ lossesLifetime events) ∧
    (∀ now w : Int, winsInWindow [] now w = 0 ∧ lossesInWindow [] now w = 0) ∧
    (∀ (events : List OutcomeEvent) (now : Int),
      winsInWindow events now oneDay ≤ winsInWindow events now (3 * oneDay) ∧
      winsInWindow events now (3 * oneDay) ≤ winsInWindow events now (7 * oneDay) ∧
      winsInWindow events now (7 * oneDay) ≤ winsInWindow events now (30 * oneDay) ∧
      winsInWindow events now (30 * oneDay) ≤ winsLifetime events ∧
      lossesInWindow events now oneDay ≤ lossesInWindow events now (3 * oneDay) ∧
      lossesInWindow events now (3 * oneDay) ≤ lossesInWindow events now (7 * oneDay) ∧
      lossesInWindow events now (7 * oneDay) ≤ lossesInWindow events now (30 * oneDay) ∧
      lossesInWindow events now (30 * oneDay) ≤ lossesLifetime events) := by
  have hwin : ∀ (events : List OutcomeEvent) (now w1 w2 : Int), w1 ≤ w2 →
      winsInWindow events now w1 ≤ winsInWindow events now w2 := by
    intro events now w1 w2 hw
    apply filter_length_mono
    intro e _ he
    simp only [Bool.and_eq_true, decide_eq_true_eq] at he ⊢
    exact ⟨⟨he.1.1, by omega⟩, he.2⟩
  have hloss : ∀ (events : List OutcomeEvent) (now w1 w2 : Int), w1 ≤ w2 →
      lossesInWindow events now w1 ≤ lossesInWindow events now w2 := by
    intro events now w1 w2 hw
    apply filter_length_mono
    intro e _ he
    simp only [Bool.and_eq_true, decide_eq_true_eq] at he ⊢
    exact ⟨⟨he.1.1, by omega⟩, he.2⟩
  have hwinlt : ∀ (events : List OutcomeEvent) (now w : Int),
      winsInWindow events now w ≤ winsLifetime events := by
    intro events now w
    apply filter_length_mono
    intro e _ he
    simp only [Bool.and_eq_true, decide_eq_true_eq] at he ⊢
    exact he.1.1
  have hlosslt : ∀ (events : List OutcomeEvent) (now w : Int),
      lossesInWindow events now w ≤ lossesLifetime events := by
    intro events now w
    apply filter_length_mono
    intro e _ he
    simp only [Bool.and_eq_true, decide_eq_true_eq] at he ⊢
    exact he.1.1
  refine ⟨fun e n w1 w2 h => ⟨hwin e n w1 w2 h, hloss e n w1 w2 h⟩,
    fun e n w => ⟨hwinlt e n w, hlosslt e n w⟩,
    fun _ _ => ⟨rfl, rfl⟩,
    fun e n => ⟨hwin e n _ _ (by norm_num [oneDay]), hwin e n _ _ (by norm_num [oneDay]),
      hwin e n _ _ (by norm_num [oneDay]), hwinlt e n _,
      hloss e n _ _ (by norm_num [oneDay]), hloss e n _ _ (by norm_num [oneDay]),
      hloss e n _ _ (by norm_num [oneDay]), hlosslt e n _⟩⟩

theorem windowed_monotone_witness :
    (oneDay ≤ 3 * oneDay ∧
      winsInWindow [⟨100, true⟩, ⟨-200000, true⟩, ⟨50, false⟩] 100 oneDay ≤
        winsInWindow [⟨100, true⟩, ⟨-200000, true⟩, ⟨50, false⟩] 100 (3 * oneDay) ∧
      lossesInWindow [⟨100, true⟩, ⟨-200000, true⟩, ⟨50, false⟩] 100 oneDay ≤
        lossesInWindow [⟨100, true⟩, ⟨-200000, true⟩, ⟨50, false⟩] 100 (3 * oneDay)) :=
  ⟨by decide, windowed_monotone.1 _ 100 oneDay (3 * oneDay) (by decide)⟩

theorem regressionDen_pos (n : Nat) (hn : 2 ≤ n) : 0 < regressionDen n := by
  have hn0 : 0 < n := by omega
  have hnonneg : ∀ q ∈ regressionIndex n, (0 : ℚ) ≤ q := by
    intro q hq
    rcases List.mem_map.1 hq with ⟨i, _, hqi⟩
    have hi : (0 : ℚ) ≤ (i : ℚ) := by exact_mod_cast Nat.zero_le i
    rwa [hqi] at hi
  have h1n : (1 : Nat) ∈ List.range n := List.mem_range.2 (by omega)
  have h1mem : (1 : ℚ) ∈ regressionIndex n := by
    unfold regressionIndex
    rw [List.mem_map]
    exact ⟨1, h1n, by norm_num⟩
  have hsum : (1 : ℚ) ≤ (regressionIndex n).sum :=
    List.single_le_sum hnonneg 1 h1mem
  have hmean : 0 < regressionMeanX n := by
    unfold regressionMeanX
    apply div_pos (by linarith)
    exact_mod_cast hn0
  have h0n : (0 : Nat) ∈ List.range n := List.mem_range.2 (by omega)
  have h0mem : (0 : ℚ) ∈ regressionIndex n := by
    unfold regressionIndex
    rw [List.mem_map]
    exact ⟨0, h0n, by norm_num⟩
  have hterm : (0 : ℚ) < ((0 : ℚ) - regressionMeanX n) ^ 2 := by
    rw [zero_sub, neg_sq]
    exact pow_pos hmean 2
  have htermmem : ((0 : ℚ) - regressionMeanX n) ^ 2 ∈
      (regressionIndex n).map (fun xi => (xi - regressionMeanX n) ^ 2) :=
    List.mem_map_of_mem _ h0mem
  have hsq : ∀ t ∈ (regressionIndex n).map (fun xi => (xi - regressionMeanX n) ^ 2),
      (0 : ℚ) ≤ t := by
    intro t ht
    rcases List.mem_map.1 ht with ⟨xi, _, rfl⟩
    exact sq_nonneg _
  unfold regressionDen
  exact lt_of_lt_of_le hterm (List.single_le_sum hsq _ htermmem)

theorem mmr_trend_eq_classify (ratings : List ℚ) (h : ¬ ratings.length < 5) :
    mmr_trend (some ratings) =
      classifySlope (olsSlope (ratings.drop (ratings.length - 100))) := by
  simp only [mmr_trend, olsSlope, classifySlope, if_neg h, List.length_drop]
  by_cases hden : regressionDen (ratings.length - (ratings.length - 100)) = 0
  · simp [hden]
  · simp [hden]

theorem regressionNum_replicate (c : ℚ) (m : Nat) :
    regressionNum (List.replicate m c) = 0 := by
  cases m with
  | zero => simp [regressionNum, regressionIndex]
  | succ k =>
    simp only [regressionNum]
    apply List.sum_eq_zero
    intro t ht
    rcases List.mem_map.1 ht with ⟨p, hp, rfl⟩
    have hp2 : p.2 = c := List.eq_of_mem_replicate (List.of_mem_zip hp).2
    have hcast : (((k + 1 : Nat)) : ℚ) ≠ 0 := by
      exact_mod_cast Nat.succ_ne_zero k
    rw [hp2, List.sum_replicate, List.length_replicate, nsmul_eq_mul,
      mul_div_cancel_left₀ c hcast, sub_self, mul_zero]

theorem mmr_trend_replicate (c : ℚ) (n : Nat) (hn : 5 ≤ n) :
    mmr_trend (some (List.replicate n c)) = "flat" := by
  have hlen : (List.replicate n c).length = n := List.length_replicate n c
  have hnot : ¬ (List.replicate n c).length < 5 := by omega
  rw [mmr_trend_eq_classify _ hnot]
  have hdrop : (List.replicate n c).drop ((List.replicate n c).length - 100) =
      List.replicate (n - (n - 100)) c := by
    rw [hlen, List.drop_replicate]
  rw [hdrop]
  have hm5 : 2 ≤ n - (n - 100) := by omega
  have hden := (regressionDen_pos (n - (n - 100)) hm5).ne'
  unfold olsSlope
  rw [List.length_replicate, if_neg hden, regressionNum_replicate, zero_div]
  simp only [classifySlope]
  norm_num

/-- C3: the trend classifier returns `unknown` on an absent history and on
fewer than 5 samples; otherwise it classifies, by the fixed thresholds, the
least-squares slope of the most recent up-to-100 samples against their
index (returning `unknown` on a zero index-variance denominator); and every
constant sequence of at least 5 samples classifies as `flat`. -/
theorem mmr_trend_spec :
    (∀ ratings : List ℚ, ratings.length < 5 → mmr_trend (some ratings) = "unknown") ∧
    mmr_trend none = "unknown" ∧
    (∀ ratings : List ℚ, 5 ≤ ratings.length →
      mmr_trend (some ratings) =
        classifySlope (olsSlope (ratings.drop (ratings.length - 100)))) ∧
    (∀ (c : ℚ) (n : Nat), 5 ≤ n → mmr_trend (some (List.replicate n c)) = "flat") := by
  refine ⟨?_, rfl, ?_, ?_⟩
  · intro r h
    simp [mmr_trend, if_pos h]
  · intro r h
    exact mmr_trend_eq_classify r (by omega)
  · exact fun c n h => mmr_trend_replicate c n h

theorem mmr_trend_spec_witness :
    (([0, 1, 2] : List ℚ).length < 5 ∧ mmr_trend (some [0, 1, 2]) = "unknown") ∧
      ((5 : Nat) ≤ 6 ∧ mmr_trend (some (List.replicate 6 (3 : ℚ))) = "flat") :=
  ⟨⟨by simp, mmr_trend_spec.1 _ (by simp)⟩,
    ⟨by simp, mmr_trend_spec.2.2.2 3 6 (by simp)⟩⟩

/-- C10: with at least 5 samples the regression denominator — the sum of
squared index deviations — is strictly positive, so the zero-denominator
`unknown` branch is unreachable and the classifier returns one of the five
slope labels. -/
theorem mmr_trend_no_degenerate :
    (∀ n : Nat, 2 ≤ n → 0 < regressionDen n) ∧
    (∀ ratings : List ℚ, 5 ≤ ratings.length →
      mmr_trend (some ratings) ≠ "unknown" ∧
      (mmr_trend (some ratings) = "strong rising" ∨
        mmr_trend (some ratings) = "rising" ∨
        mmr_trend (some ratings) = "strong falling" ∨
        mmr_trend (some ratings) = "falling" ∨
        mmr_trend (some ratings) = "flat")) := by
  refine ⟨regressionDen_pos, ?_⟩
  intro ratings h5
  have hnot : ¬ ratings.length < 5 := by omega
  have hden := (regressionDen_pos ((ratings.drop (ratings.length - 100)).length)
    (by rw [List.length_drop]; omega)).ne'
  rw [mmr_trend_eq_classify ratings hnot]
  unfold olsSlope
  rw [if_neg hden]
  simp only [classifySlope]
  constructor
  · split_ifs <;> simp
  · split_ifs <;> simp

theorem mmr_trend_no_degenerate_witness :
    ((2 : Nat) ≤ 2 ∧ 0 < regressionDen 2) ∧
      ((5 : Nat) ≤ ([0, 1, 2, 3, 4] : List ℚ).length ∧
        mmr_trend (some [0, 1, 2, 3, 4]) ≠ "unknown" ∧
        (mmr_trend (some [0, 1, 2, 3, 4]) = "strong rising" ∨
          mmr_trend (some [0, 1, 2, 3, 4]) = "rising" ∨
          mmr_trend (some [0, 1, 2, 3, 4]) = "strong falling" ∨
          mmr_trend (some [0, 1, 2, 3, 4]) = "falling" ∨
          mmr_trend (some [0, 1, 2, 3, 4]) = "flat")) :=
  ⟨⟨by simp, mmr_trend_no_degenerate.1 2 (by simp)⟩,
    ⟨by simp, mmr_trend_no_degenerate.2 _ (by simp)⟩⟩

end SmurfSniper

namespace SmurfSniper

theorem head_fst_bump (kv : String × TeammateEntry) (target : String) (ts : Int) :
    ((if kv.1 = target then (kv.1, bumpEntry kv.2 ts) else kv) :
      String × TeammateEntry).1 = kv.1 := by
  split <;> rfl

theorem lookupName_isSome_iff_mem (n : String) :
    ∀ acc : List (String × TeammateEntry),
      (lookupName n acc).isSome ↔ n ∈ keysOf acc := by
  intro acc
  induction acc with
  | nil => simp [lookupName, keysOf]
  | cons kv rest ih =>
    simp only [lookupName, keysOf, List.map_cons, List.mem_cons]
    by_cases h : kv.1 = n
    · simp [h]
    · simp only [if_neg h]
      rw [ih]
      unfold keysOf
      constructor
      · exact Or.inr
      · rintro (heq | hm)
        · exact absurd heq.symm h
        · exact hm

theorem keysOf_upsert (acc : List (String × TeammateEntry)) (n : String) (ts : Int) :
    keysOf (upsertTeammate acc n ts) =
      if n ∈ keysOf acc then keysOf acc else keysOf acc ++ [n] := by
  unfold upsertTeammate
  cases hl : lookupName n acc with
  | some e =>
    have hmem : n ∈ keysOf acc := by
      rw [← lookupName_isSome_iff_mem, hl]; rfl
    rw [if_pos hmem]
    unfold keysOf
    rw [List.map_map]
    apply List.map_congr_left
    intro kv _
    show ((if kv.1 = n then (kv.1, bumpEntry kv.2 ts) else kv) :
      String × TeammateEntry).1 = kv.1
    exact head_fst_bump kv n ts
  | none =>
    have hmem : ¬ n ∈ keysOf acc := by
      rw [← lookupName_isSome_iff_mem, hl]; simp
    rw [if_neg hmem]
    unfold keysOf
    simp

theorem keysOf_fold (events : List (String × Int)) :
    ∀ acc : List (String × TeammateEntry),
      keysOf (events.foldl (fun r p => upsertTeammate r p.1 p.2) acc) =
        events.foldl (fun ks p => if p.1 ∈ ks then ks else ks ++ [p.1]) (keysOf acc) := by
  induction events with
  | nil => intro acc; rfl
  | cons p rest ih =>
    intro acc
    rw [List.foldl_cons, List.foldl_cons, ih, keysOf_upsert]

theorem lookupName_append (n : String) :
    ∀ (acc l2 : List (String × TeammateEntry)),
      lookupName n (acc ++ l2) =
        match lookupName n acc with
        | some e => some e
        | none => lookupName n l2 := by
  intro acc l2
  induction acc with
  | nil => simp [lookupName]
  | cons kv rest ih =>
    by_cases h : kv.1 = n
    · simp [lookupName, h]
    · simp only [List.cons_append, lookupName, if_neg h]
      exact ih

theorem lookupName_map_bump (target n : String) (ts : Int) :
    ∀ acc : List (String × TeammateEntry),
      lookupName n
          (acc.map (fun kv => if kv.1 = target then (kv.1, bumpEntry kv.2 ts) else kv)) =
        if target = n then Option.map (fun e => bumpEntry e ts) (lookupName n acc)
        else lookupName n acc := by
  intro acc
  induction acc with
  | nil => by_cases htn : target = n <;> simp [lookupName, htn]
  | cons kv rest ih =>
    simp only [List.map_cons, lookupName, head_fst_bump]
    by_cases hkn : kv.1 = n
    · rw [if_pos hkn]
      by_cases htn : target = n
      · have hkt : kv.1 = target := by rw [hkn, htn]
        rw [if_pos hkt, if_pos htn, if_pos hkn]
        rfl
      · have hkt : ¬ kv.1 = target := by rw [hkn]; exact fun h => htn h.symm
        rw [if_neg hkt, if_neg htn, if_pos hkn]
    · rw [if_neg hkn, ih]
      by_cases htn : target = n
      · rw [if_pos htn, if_pos htn, if_neg hkn]
      · rw [if_neg htn, if_neg htn, if_neg hkn]

theorem lookup_upsert_same (acc : List (String × TeammateEntry)) (n : String) (ts : Int) :
    lookupName n (upsertTeammate acc n ts) =
      some (bumpEntry ((lookupName n acc).getD ⟨0, none⟩) ts) := by
  unfold upsertTeammate
  cases hl : lookupName n acc with
  | some e =>
    rw [lookupName_map_bump n n ts acc, if_pos rfl, hl]
    rfl
  | none =>
    rw [lookupName_append, hl]
    simp [lookupName]

theorem lookup_upsert_other (acc : List (String × TeammateEntry)) (k n : String)
    (ts : Int) (hne : ¬ (k = n)) :
    lookupName n (upsertTeammate acc k ts) = lookupName n acc := by
  unfold upsertTeammate
  cases hl : lookupName k acc with
  | some e => rw [lookupName_map_bump k n ts acc, if_neg hne]
  | none =>
    rw [lookupName_append]
    cases hl2 : lookupName n acc with
    | some e => rfl
    | none => simp [lookupName, hne]

theorem lookup_fold (n : String) :
    ∀ (events : List (String × Int)) (acc : List (String × TeammateEntry)),
      lookupName n (events.foldl (fun r p => upsertTeammate r p.1 p.2) acc) =
        applyTss (lookupName n acc) ((events.filter (fun p => p.1 = n)).map Prod.snd) := by
  intro events
  induction events with
  | nil => intro acc; rfl
  | cons p rest ih =>
    intro acc
    rw [List.foldl_cons]
    by_cases hp : p.1 = n
    · rw [ih, List.filter_cons, if_pos (by simpa using hp), hp, lookup_upsert_same]
      simp only [List.map_cons, applyTss, List.foldl_cons]
    · rw [ih, lookup_upsert_other acc p.1 n p.2 hp, List.filter_cons,
        if_neg (by simpa using hp)]

theorem applyTss_some :
    ∀ (l : List Int) (c : Nat) (m : Int),
      applyTss (some ⟨c, some m⟩) l = some ⟨c + l.length, some (l.foldl max m)⟩ := by
  intro l
  induction l with
  | nil => intro c m; simp [applyTss]
  | cons t rest ih =>
    intro c m
    have hb : bumpEntry ⟨c, some m⟩ t = ⟨c + 1, some (max m t)⟩ := by
      unfold bumpEntry
      rcases le_or_lt t m with h | h
      · simp only [if_neg (not_lt.2 h), max_eq_left h]
      · simp only [if_pos h, max_eq_right (le_of_lt h)]
    show applyTss (some (bumpEntry ((some (⟨c, some m⟩ : TeammateEntry)).getD ⟨0, none⟩) t))
        rest = _
    rw [Option.getD_some, hb, ih (c + 1) (max m t)]
    simp only [List.length_cons, List.foldl_cons, Option.some_inj]
    congr 1
    omega

theorem applyTss_none_cons (t : Int) (rest : List Int) :
    applyTss none (t :: rest) = some ⟨1 + rest.length, some (rest.foldl max t)⟩ := by
  show applyTss (some (bumpEntry ((none : Option TeammateEntry).getD ⟨0, none⟩) t)) rest = _
  rw [Option.getD_none, show bumpEntry ⟨0, none⟩ t = ⟨1, some t⟩ from rfl,
    applyTss_some rest 1 t]

theorem members_fold_eq (my_name : String) (ts : Int) :
    ∀ (members : List ScMatchBriefer.TeamMemberRef) (r : List (String × TeammateEntry)),
      members.foldl (fun r m =>
          if m.name = my_name then r else upsertTeammate r m.name ts) r =
        ((members.filter (fun m => m.name ≠ my_name)).map (fun m => (m.name, ts))).foldl
          (fun r p => upsertTeammate r p.1 p.2) r := by
  intro members
  induction members with
  | nil => intro r; rfl
  | cons m rest ih =>
    intro r
    rw [List.foldl_cons]
    by_cases h : m.name = my_name
    · rw [if_pos h]
      rw [show List.filter (fun m => decide (m.name ≠ my_name)) (m :: rest) =
          List.filter (fun m => decide (m.name ≠ my_name)) rest from by
        rw [List.filter_cons]; simp [h]]
      exact ih r
    · rw [if_neg h]
      rw [show List.filter (fun m => decide (m.name ≠ my_name)) (m :: rest) =
          m :: List.filter (fun m => decide (m.name ≠ my_name)) rest from by
        rw [List.filter_cons]; simp [h]]
      rw [List.map_cons, List.foldl_cons]
      exact ih _

theorem teammatesCore_eq_events (my_name : String) :
    ∀ (teams : List TeamObs) (r : List (String × TeammateEntry)),
      teams.foldl (fun result team =>
          match team.lastPlayed with
          | none => result
          | some ts =>
            team.members.foldl (fun result m =>
              if m.name = my_name then result else upsertTeammate result m.name ts)
              result) r =
        (eventsOf teams my_name).foldl (fun r p => upsertTeammate r p.1 p.2) r := by
  intro teams
  induction teams with
  | nil => intro r; rfl
  | cons t rest ih =>
    intro r
    rw [List.foldl_cons]
    unfold eventsOf
    rw [List.flatMap_cons, List.foldl_append]
    cases ht : t.lastPlayed with
    | none =>
      simp only [ht]
      exact ih r
    | some ts =>
      simp only [ht]
      rw [members_fold_eq my_name ts t.members r]
      exact ih _

theorem teammatesCore_events (teams : List TeamObs) (my_name : String) :
    teammatesCore teams my_name =
      (eventsOf teams my_name).foldl (fun r p => upsertTeammate r p.1 p.2) [] :=
  teammatesCore_eq_events my_name teams []

theorem eventsOf_ne_subject (teams : List TeamObs) (my_name : String) :
    ∀ p ∈ eventsOf teams my_name, ¬ (p.1 = my_name) := by
  intro p hp
  unfold eventsOf at hp
  rcases List.mem_flatMap.1 hp with ⟨t, _, hpt⟩
  cases ht : t.lastPlayed with
  | none => rw [ht] at hpt; cases hpt
  | some ts =>
    rw [ht] at hpt
    rcases List.mem_map.1 hpt with ⟨m, hm, hmp⟩
    have := List.of_mem_filter hm
    rw [← hmp]
    simpa using this

/-- C7 counterexample: a single timestamped team whose member list carries
the same display name twice (same-named accounts are the premise of the
whole resolver) yields count 2 for that name, while only 1 timestamped team
contains it — the tracker counts member occurrences, not teams. -/
theorem teammates_count_counterexample :
    lookupName "X" (teammates (some [0])
        [⟨some 5, [⟨"X", 1⟩, ⟨"X", 2⟩]⟩] "me") = some ⟨2, some 5⟩ ∧
      (([⟨some 5, [⟨"X", 1⟩, ⟨"X", 2⟩]⟩] : List TeamObs).filter
        (fun t => t.lastPlayed.isSome && t.members.any (fun m => m.name == "X"))).length
        = 1 ∧
      (2 : Nat) ≠ 1 :=
  ⟨rfl, rfl, by decide⟩

/-- C7 (amended): when a match history is present, the tracker maps each
teammate name other than the subject to a count equal to its number of
member occurrences across timestamped historical teams and to the maximum
last-played timestamp over those occurrences, skipping teams with no
last-played timestamp, with keys in first-seen insertion order; the subject
never appears; an absent match history yields the empty table; and a
teammate sharing 3 distinct timestamped teams with timestamps t1 < t2 < t3
gets count 3 and last-played t3. -/
theorem teammates_spec :
    (∀ (hist : List ℚ) (teams : List TeamObs) (my_name : String),
      keysOf (teammates (some hist) teams my_name) =
        firstSeen ((eventsOf teams my_name).map Prod.fst) ∧
      (∀ n : String,
        lookupName n (teammates (some hist) teams my_name) =
          match occTs teams my_name n with
          | [] => none
          | t :: rest => some ⟨1 + rest.length, some (rest.foldl max t)⟩) ∧
      lookupName my_name (teammates (some hist) teams my_name) = none) ∧
    (∀ (teams : List TeamObs) (my_name : String), teammates none teams my_name = []) ∧
    (∀ (t1 t2 t3 : Int) (hist : List ℚ), t1 < t2 → t2 < t3 →
      lookupName "mate" (teammates (some hist)
        [⟨some t1, [⟨"mate", 1⟩, ⟨"me", 2⟩]⟩,
         ⟨some t2, [⟨"mate", 1⟩, ⟨"me", 2⟩]⟩,
         ⟨some t3, [⟨"mate", 1⟩, ⟨"me", 2⟩]⟩] "me") = some ⟨3, some t3⟩) := by
  have hlook : ∀ (hist : List ℚ) (teams : List TeamObs) (my_name n : String),
      lookupName n (teammates (some hist) teams my_name) =
        match occTs teams my_name n with
        | [] => none
        | t :: rest => some ⟨1 + rest.length, some (rest.foldl max t)⟩ := by
    intro hist teams my_name n
    show lookupName n (teammatesCore teams my_name) = _
    rw [teammatesCore_events, lookup_fold]
    show applyTss none (occTs teams my_name n) = _
    cases h : occTs teams my_name n with
    | nil => rfl
    | cons t rest => exact applyTss_none_cons t rest
  refine ⟨fun hist teams my_name => ⟨?_, hlook hist teams my_name, ?_⟩, fun _ _ => rfl, ?_⟩
  · show keysOf (teammatesCore teams my_name) = _
    rw [teammatesCore_events, keysOf_fold]
    unfold firstSeen
    rw [List.foldl_map]
    rfl
  · rw [hlook]
    have hnil : occTs teams my_name my_name = [] := by
      unfold occTs
      rw [show (eventsOf teams my_name).filter (fun p => decide (p.1 = my_name)) = [] from
        List.filter_eq_nil_iff.2 (fun p hp => by
          simpa using eventsOf_ne_subject teams my_name p hp)]
      rfl
    rw [hnil]
  · intro t1 t2 t3 hist h12 h23
    rw [hlook]
    have hocc : occTs
        [⟨some t1, [⟨"mate", 1⟩, ⟨"me", 2⟩]⟩,
         ⟨some t2, [⟨"mate", 1⟩, ⟨"me", 2⟩]⟩,
         ⟨some t3, [⟨"mate", 1⟩, ⟨"me", 2⟩]⟩] "me" "mate" = [t1, t2, t3] := by
      unfold occTs eventsOf
      simp
    rw [hocc]
    show some (⟨1 + 2, some (max (max t1 t2) t3)⟩ : TeammateEntry) = _
    rw [max_eq_right (le_of_lt h12), max_eq_right (le_of_lt h23)]

theorem teammates_spec_witness :
    ((2 : Int) < 4 ∧ (4 : Int) < 9 ∧
      lookupName "mate" (teammates (some [0])
        [⟨some 2, [⟨"mate", 1⟩, ⟨"me", 2⟩]⟩,
         ⟨some 4, [⟨"mate", 1⟩, ⟨"me", 2⟩]⟩,
         ⟨some 9, [⟨"mate", 1⟩, ⟨"me", 2⟩]⟩] "me") = some ⟨3, some 9⟩) :=
  ⟨by decide, by decide, teammates_spec.2.2 2 4 9 [0] (by decide) (by decide)⟩

end SmurfSniper

namespace SmurfSniper

/-- C9: team reconstruction fails with the team-level `NoTeamFound` error
exactly when no historical team in any player's team list matches the
requested roster's ids; when at least one matches, it returns the merged
team built from all matching observations. -/
theorem from_players_stats_spec :
    ∀ player_stats : List ScMatchBriefer.PlayerStats,
      from_players_stats player_stats = specTeamRecon player_stats := by
  intro player_stats
  simp only [from_players_stats, specTeamRecon]
  by_cases h : ∃ ps ∈ player_stats, ∃ t ∈ ps.teams,
      sortedIds (t.members.map (·.battlenetId)) =
        sortedIds (player_stats.map (·.battlenetId))
  · obtain ⟨ps, hps, t, ht, hpred⟩ := id h
    have htf : t ∈ matchingObservations player_stats := by
      unfold matchingObservations
      exact List.mem_flatMap.2 ⟨ps, hps, List.mem_filter.2 ⟨ht, by simpa using hpred⟩⟩
    have hne : (matchingObservations player_stats).isEmpty = false := by
      cases hm : matchingObservations player_stats with
      | nil => rw [hm] at htf; cases htf
      | cons a l => rfl
    rw [hne]
    simp only [Bool.false_eq_true, if_false]
    rw [if_pos h]
  · have hnil : matchingObservations player_stats = [] := by
      unfold matchingObservations
      rw [List.flatMap_eq_nil_iff]
      intro ps hps
      rw [List.filter_eq_nil_iff]
      intro t ht hpred
      exact h ⟨ps, hps, t, ht, by simpa using hpred⟩
    rw [hnil, if_neg h]
    rfl


end SmurfSniper
